import Mathlib

/-!
Verification of the vtu-watcher core (src/watcher.py): identity resolution
(make_id), response normalisation (extract_items_from_response), and the
watch cycle (main) with its seen-set handling, embedded shallowly in Lean.
-/

set_option maxHeartbeats 1000000
set_option maxRecDepth 100000

/-- Decoded JSON values as produced by the Python json module.  Objects keep
insertion order (Python dicts are ordered); keys of a decoded object are
unique.  Numbers are modelled as integers. -/
inductive Json where
  | null : Json
  | bool : Bool → Json
  | num : Int → Json
  | str : String → Json
  | arr : List Json → Json
  | obj : List (String × Json) → Json

/-- Python truthiness of a decoded JSON value. -/
def truthy : Json → Bool
  | .null => false
  | .bool b => b
  | .num n => n != 0
  | .str s => s != ""
  | .arr xs => !xs.isEmpty
  | .obj fs => !fs.isEmpty

/-- Dictionary lookup: the value of the first field named k, if any. -/
def getOpt (fs : List (String × Json)) (k : String) : Option Json :=
  match fs with
  | [] => none
  | (k', v) :: rest => if k' = k then some v else getOpt rest k

/-- Python dict.get with default None: a missing key yields null. -/
def pyGet (fs : List (String × Json)) (k : String) : Json :=
  match getOpt fs k with
  | some v => v
  | none => .null

/-- Python repr of a decoded JSON value (string escaping simplified to plain
quoting, which is exact for strings without quotes or escapes). -/
def pyRepr : Json → String
  | .null => "None"
  | .bool true => "True"
  | .bool false => "False"
  | .num n => toString n
  | .str s => "'" ++ s ++ "'"
  | .arr xs => "[" ++ String.intercalate ", " (xs.attach.map fun x => pyRepr x.1) ++ "]"
  | .obj fs => "\x7b" ++ String.intercalate ", "
      (fs.attach.map fun p => "'" ++ p.1.1 ++ "': " ++ pyRepr p.1.2) ++ "\x7d"
decreasing_by
  · simp_wf
    have := List.sizeOf_lt_of_mem x.2
    omega
  · simp_wf
    have h1 := List.sizeOf_lt_of_mem p.2
    have h2 : sizeOf p.1.2 < sizeOf p.1 := by
      obtain ⟨a, b⟩ := p.1
      simp
    omega

/-- Python str() of a decoded JSON value: identity on strings, decimal on
integers, True and False and None keywords, repr on containers. -/
def pyStr : Json → String
  | .str s => s
  | .num n => toString n
  | .bool true => "True"
  | .bool false => "False"
  | .null => "None"
  | j => pyRepr j

/-! ### SHA-1 (hashlib.sha1(...).hexdigest() over the UTF-8 bytes) -/

/-- UTF-8 encoding of one code point, as byte values. -/
def utf8Encode (c : Nat) : List Nat :=
  if c < 128 then [c]
  else if c < 2048 then [192 + c / 64, 128 + c % 64]
  else if c < 65536 then [224 + c / 4096, 128 + (c / 64) % 64, 128 + c % 64]
  else [240 + c / 262144, 128 + (c / 4096) % 64, 128 + (c / 64) % 64, 128 + c % 64]

/-- The UTF-8 bytes of a string (s.encode in Python). -/
def strBytes (s : String) : List Nat :=
  (s.data.map (fun c => utf8Encode c.toNat)).flatten

/-- Truncation to 32 bits. -/
def w32 (n : Nat) : Nat := n % 4294967296

/-- 32-bit left rotation by k. -/
def rotl (k n : Nat) : Nat := w32 ((n <<< k) ||| (n >>> (32 - k)))

/-- SHA-1 padding: append the 0x80 byte, zeros to 56 mod 64, and the 64-bit
big-endian bit length. -/
def sha1pad (msg : List Nat) : List Nat :=
  let L := msg.length
  let k := (119 - L % 64) % 64
  msg ++ [128] ++ List.replicate k 0 ++ beBytes 8 (8 * L)
where
  /-- count bytes of n, big-endian. -/
  beBytes : Nat → Nat → List Nat
    | 0, _ => []
    | c + 1, n => beBytes c (n / 256) ++ [n % 256]

/-- Big-endian 32-bit words from a byte list. -/
def bytesToWords : List Nat → List Nat
  | b0 :: b1 :: b2 :: b3 :: rest =>
      (((b0 * 256 + b1) * 256 + b2) * 256 + b3) :: bytesToWords rest
  | _ => []

/-- SHA-1 message-schedule extension: wrev holds the words produced so far in
reverse; fuel more words are appended. -/
def extendWords : Nat → List Nat → List Nat
  | 0, wrev => wrev
  | fuel + 1, wrev =>
      let wt := rotl 1 (wrev.getD 2 0 ^^^ wrev.getD 7 0 ^^^ wrev.getD 13 0 ^^^ wrev.getD 15 0)
      extendWords fuel (wt :: wrev)

/-- SHA-1 round function for round t. -/
def sha1f (t b c d : Nat) : Nat :=
  if t < 20 then (b &&& c) ||| ((b ^^^ 4294967295) &&& d)
  else if t < 40 then b ^^^ c ^^^ d
  else if t < 60 then (b &&& c) ||| (b &&& d) ||| (c &&& d)
  else b ^^^ c ^^^ d

/-- SHA-1 round constant for round t. -/
def sha1k (t : Nat) : Nat :=
  if t < 20 then 1518500249
  else if t < 40 then 1859775393
  else if t < 60 then 2400959708
  else 3395469782

/-- The 80 compression rounds, folding over the schedule words. -/
def sha1Rounds : List Nat → Nat → Nat × Nat × Nat × Nat × Nat → Nat × Nat × Nat × Nat × Nat
  | [], _, st => st
  | wt :: rest, t, (a, b, c, d, e) =>
      let temp := w32 (rotl 5 a + sha1f t b c d + e + sha1k t + wt)
      sha1Rounds rest (t + 1) (temp, a, rotl 30 b, c, d)

/-- Process 16-word chunks; fuel bounds the number of recursion steps. -/
def sha1Chunks : Nat → List Nat → Nat × Nat × Nat × Nat × Nat → Nat × Nat × Nat × Nat × Nat
  | 0, _, st => st
  | _ + 1, [], st => st
  | fuel + 1, ws, (h0, h1, h2, h3, h4) =>
      let chunk := ws.take 16
      let (a, b, c, d, e) := sha1Rounds (extendWords 64 chunk.reverse).reverse 0 (h0, h1, h2, h3, h4)
      sha1Chunks fuel (ws.drop 16)
        (w32 (h0 + a), w32 (h1 + b), w32 (h2 + c), w32 (h3 + d), w32 (h4 + e))

/-- The lower-case hex digit for a nibble value: digits start at code 48,
letters at code 97. -/
def hexChar (n : Nat) : Char :=
  if n < 10 then Char.ofNat (48 + n) else Char.ofNat (87 + n)

/-- count hex digits of n, big-endian. -/
def hexDigits : Nat → Nat → List Char
  | 0, _ => []
  | c + 1, n => hexDigits c (n / 16) ++ [hexChar (n % 16)]

/-- hashlib.sha1(s.encode("utf-8")).hexdigest(): the 40-character lower-case
hex SHA-1 digest of the UTF-8 bytes of s. -/
def sha1hex (s : String) : String :=
  let ws := bytesToWords (sha1pad (strBytes s))
  let (h0, h1, h2, h3, h4) :=
    sha1Chunks ws.length ws (1732584193, 4023233417, 2562383102, 271733878, 3285377520)
  String.mk (hexDigits 8 h0 ++ hexDigits 8 h1 ++ hexDigits 8 h2 ++ hexDigits 8 h3 ++ hexDigits 8 h4)

/-- Known-answer test for the SHA-1 embedding (FIPS 180 vector for "abc"). -/
theorem sha1hex_abc : sha1hex "abc" = "a9993e364706816aba3e25717850c26c9cd0d89d" := by
  decide

/-! ### make_id (src/watcher.py lines 37-45) -/

/-- The canonical identifier keys tried by make_id, in preference order. -/
def idKeys : List String := ["id", "_id", "internship_id"]

/-- One step of the id-key loop: the value of key k when k is present in the
record with a truthy value (the test k in item and item[k]). -/
def checkIdKey (fs : List (String × Json)) (k : String) : Option Json :=
  match getOpt fs k with
  | some v => if truthy v then some v else none
  | none => none

/-- A Python or-chain over values, falling back to a default: the first truthy
value, else the default. -/
def orDefault : List Json → Json → Json
  | [], d => d
  | v :: rest, d => if truthy v then v else orDefault rest d

/-- item.get("title") or item.get("name") or item.get("position") or "". -/
def titleVal (fs : List (String × Json)) : Json :=
  orDefault [pyGet fs "title", pyGet fs "name", pyGet fs "position"] (.str "")

/-- item.get("link") or item.get("url") or item.get("slug") or "". -/
def linkVal (fs : List (String × Json)) : Json :=
  orDefault [pyGet fs "link", pyGet fs "url", pyGet fs "slug"] (.str "")

/-- make_id (src/watcher.py lines 37-45).  On a mapping: the first of the
canonical id keys that is present with a truthy value, converted with str();
otherwise the SHA-1 hex digest of title + "|" + str(link), where the title
or-chain must produce a string (a truthy non-string title raises TypeError on
the + concatenation).  On a non-mapping the id-key loop is skipped by the
isinstance test and item.get("title") raises AttributeError.  A raised
exception is modelled as Except.error with the exception name. -/
def make_id (item : Json) : Except String String :=
  match item with
  | .obj fs =>
    match checkIdKey fs "id" with
    | some v => .ok (pyStr v)
    | none =>
      match checkIdKey fs "_id" with
      | some v => .ok (pyStr v)
      | none =>
        match checkIdKey fs "internship_id" with
        | some v => .ok (pyStr v)
        | none =>
          match titleVal fs with
          | .str t => .ok (sha1hex (t ++ "|" ++ pyStr (linkVal fs)))
          | _ => .error "TypeError"
  | _ => .error "AttributeError"

/-! ### extract_items_from_response (src/watcher.py lines 98-124) -/

/-- The first list-valued entry of a mapping, in iteration order (the
for v in resp_json.values() fallback loop). -/
def firstList (fs : List (String × Json)) : Option (List Json) :=
  fs.findSome? fun p =>
    match p.2 with
    | .arr xs => some xs
    | _ => none

/-- The "internships" branch and the first-list fallback of the dict case of
extract_items_from_response (src/watcher.py lines 112-119). -/
def extractFallback (fs : List (String × Json)) : List Json :=
  match getOpt fs "internships" with
  | some (.arr xs) => xs
  | _ =>
    match firstList fs with
    | some xs => xs
    | none => []

/-- The inner lookup of the nested dict case (src/watcher.py lines 108-109):
resp["data"] is a mapping gs; return its "data" list if it has one, else fall
through to the remaining branches on the outer mapping. -/
def extractDataObj (fs gs : List (String × Json)) : List Json :=
  match getOpt gs "data" with
  | some (.arr ys) => ys
  | _ => extractFallback fs

/-- The dict case of extract_items_from_response (src/watcher.py lines
102-119). -/
def extractObj (fs : List (String × Json)) : List Json :=
  match getOpt fs "data" with
  | some (.arr xs) => xs
  | some (.obj gs) => extractDataObj fs gs
  | _ => extractFallback fs

/-- extract_items_from_response (src/watcher.py lines 98-124): null gives [];
a mapping gives the list under "data", else the list under "data"."data",
else the list under "internships", else its first list-valued entry, else [];
a list is returned unchanged; anything else gives []. -/
def extract_items_from_response (resp : Json) : List Json :=
  match resp with
  | .null => []
  | .obj fs => extractObj fs
  | .arr xs => xs
  | _ => []

/-! ### The watch cycle: main (src/watcher.py lines 127-175)

The run is modelled as a function of the fetch collaborator (page number to
raw JSON or failure), the MAX_PAGES bound, and the seen-set loaded by
load_seen.  Externally visible actions are recorded in an event trace:
each fetch_page call, the summary print, each send_email_plain attempt and
the final save_seen call. -/

/-- Externally visible actions of one run. -/
inductive Event where
  | fetch : Nat → Event
  | report : Nat → Nat → Event
  | notify : String → Json → Event
  | persist : Finset String → Event

/-- True exactly on fetch events. -/
def Event.isFetch : Event → Bool
  | .fetch _ => true
  | _ => false

/-- Outcome of the pagination loop: an uncaught exception from make_id, or
normal loop exit with the accumulated state.  ids is the list of every
identifier resolved during the loop, in processing order. -/
inductive PagesOut where
  | crashed : String → List Event → PagesOut
  | done : Finset String → List (String × Json) → Nat → List String → List Event → PagesOut

/-- Outcome of one whole run. -/
inductive MainOut where
  | crashed : String → List Event → MainOut
  | finished : Finset String → List (String × Json) → Nat → Nat → List String → List Event → MainOut

/-- The trace of events emitted before the run ended. -/
def MainOut.trace : MainOut → List Event
  | .crashed _ tr => tr
  | .finished _ _ _ _ _ tr => tr

/-- The per-item loop of one page (src/watcher.py lines 150-154): resolve the
identifier, and when unseen add it to the set and to newly_seen.  An
exception from make_id propagates. -/
def processItems : List Json → Finset String → List (String × Json) → List String →
    Except String (Finset String × List (String × Json) × List String)
  | [], seen, newly, ids => .ok (seen, newly, ids)
  | it :: rest, seen, newly, ids =>
    match make_id it with
    | .error e => .error e
    | .ok uid =>
      if uid ∈ seen then processItems rest seen newly (ids ++ [uid])
      else processItems rest (insert uid seen) (newly ++ [(uid, it)]) (ids ++ [uid])

/-- The identifiers of a list of items, or the first exception raised. -/
def resolveIds : List Json → Except String (List String)
  | [] => .ok []
  | it :: rest =>
    match make_id it with
    | .error e => .error e
    | .ok uid =>
      match resolveIds rest with
      | .error e => .error e
      | .ok uids => .ok (uid :: uids)

/-- The pagination loop (src/watcher.py lines 136-155): fetch pages starting
at page, for at most fuel further iterations; a fetch failure or a page with
no extracted items breaks the loop. -/
def runPages (fetch : Nat → Except Unit Json) :
    Nat → Nat → Finset String → List (String × Json) → Nat → List String → List Event → PagesOut
  | _, 0, seen, newly, fetched, ids, tr => .done seen newly fetched ids tr
  | page, fuel + 1, seen, newly, fetched, ids, tr =>
    match fetch page with
    | .error _ => .done seen newly fetched ids (tr ++ [.fetch page])
    | .ok resp =>
      match extract_items_from_response resp with
      | [] => .done seen newly fetched ids (tr ++ [.fetch page])
      | it :: items =>
        match processItems (it :: items) seen newly ids with
        | .error e => .crashed e (tr ++ [.fetch page])
        | .ok (seen', newly', ids') =>
          runPages fetch (page + 1) fuel seen' newly' (fetched + (it :: items).length) ids'
            (tr ++ [.fetch page])

/-- The notification loop (src/watcher.py lines 160-169): one
send_email_plain attempt per newly seen item, in discovery order; a delivery
failure is caught and changes nothing. -/
def notifyEvents : List (String × Json) → List Event
  | [] => []
  | (uid, it) :: rest => .notify uid it :: notifyEvents rest

/-- The function main of src/watcher.py (lines 127-175): take the seen set
loaded by load_seen, run the pagination loop from page 1 bounded by
MAX_PAGES, print the summary, attempt one email per new item, and finally
save_seen the whole set once. -/
def watcherMain (fetch : Nat → Except Unit Json) (maxPages : Nat) (seen0 : Finset String) : MainOut :=
  match runPages fetch 1 maxPages seen0 [] 0 [] [] with
  | .crashed e tr => .crashed e tr
  | .done seen newly fetched ids tr =>
    .finished seen newly fetched newly.length ids
      (tr ++ .report fetched newly.length :: (notifyEvents newly ++ [.persist seen]))

/-- The pages passed to fetch_page, in call order. -/
def fetchedPages (tr : List Event) : List Nat :=
  tr.filterMap fun e =>
    match e with
    | .fetch p => some p
    | _ => none

/-- Whether every notification in the trace is preceded by a persist event
whose set already contains the notified identifier (the mark-persist-notify
discipline claimed by the spec).  The first argument collects the sets
persisted so far. -/
def pbnAux (persisted : List (Finset String)) : List Event → Bool
  | [] => true
  | .persist s :: rest => pbnAux (s :: persisted) rest
  | .notify uid _ :: rest => persisted.any (fun s => uid ∈ s) && pbnAux persisted rest
  | _ :: rest => pbnAux persisted rest

/-- Whether the trace contains any persist event. -/
def hasPersist (tr : List Event) : Bool :=
  tr.any fun e =>
    match e with
    | .persist _ => true
    | _ => false

/-! ### Concrete collaborators used to exercise the run -/

/-- A record with an upstream id and title and link fields. -/
def objA : Json := .obj [("id", .str "A"), ("title", .str "T"), ("link", .str "L")]

/-- Upstream returning one new record on page 1 and an empty page 2. -/
def fetchA : Nat → Except Unit Json := fun p =>
  if p = 1 then .ok (.obj [("data", .arr [objA])]) else .ok (.obj [("data", .arr [])])

/-- Upstream returning a bare list of strings (a shape the normalizer passes
through unchanged). -/
def fetchC : Nat → Except Unit Json := fun _ => .ok (.arr [.str "a", .str "b"])

/-- Upstream returning one new record on page 1 and failing on page 2. -/
def fetchD : Nat → Except Unit Json := fun p =>
  if p = 1 then .ok (.obj [("data", .arr [objA])]) else .error ()

/-! ### Lemmas about dictionary lookup -/

theorem getOpt_eq_none_iff (fs : List (String × Json)) (k : String) :
    getOpt fs k = none ↔ k ∉ fs.map Prod.fst := by
  induction fs with
  | nil => simp [getOpt]
  | cons p rest ih =>
    obtain ⟨k', v⟩ := p
    have step : getOpt ((k', v) :: rest) k = if k' = k then some v else getOpt rest k := rfl
    by_cases h : k' = k
    · subst h
      simp [step]
    · rw [step, if_neg h, ih]
      simp only [List.map_cons, List.mem_cons]
      constructor
      · intro hn hm
        rcases hm with he | hm'
        · exact h he.symm
        · exact hn hm'
      · intro hn hm
        exact hn (Or.inr hm)

theorem getOpt_eq_some_of_mem (fs : List (String × Json)) (k : String) (v : Json)
    (nd : (fs.map Prod.fst).Nodup) (hm : (k, v) ∈ fs) : getOpt fs k = some v := by
  induction fs with
  | nil => simp at hm
  | cons p rest ih =>
    obtain ⟨k', v'⟩ := p
    simp only [List.map_cons, List.nodup_cons] at nd
    rcases List.mem_cons.mp hm with h | h
    · injection h with h1 h2
      subst h1
      subst h2
      simp [getOpt]
    · have hk : k' ≠ k := by
        intro he
        exact nd.1 (he ▸ (List.mem_map.mpr ⟨(k, v), h, rfl⟩))
      simp [getOpt, hk, ih nd.2 h]

theorem mem_of_getOpt_eq_some (fs : List (String × Json)) (k : String) (v : Json)
    (h : getOpt fs k = some v) : (k, v) ∈ fs := by
  induction fs with
  | nil => simp [getOpt] at h
  | cons p rest ih =>
    obtain ⟨k', v'⟩ := p
    by_cases hk : k' = k
    · simp [getOpt, hk] at h
      simp [hk, h]
    · simp [getOpt, hk] at h
      exact List.mem_cons_of_mem _ (ih h)

/-- Lookup is invariant under permutation of the fields when the keys are
distinct. -/
theorem getOpt_perm (fs₁ fs₂ : List (String × Json)) (hp : fs₁.Perm fs₂)
    (nd : (fs₁.map Prod.fst).Nodup) (k : String) : getOpt fs₁ k = getOpt fs₂ k := by
  rcases h : getOpt fs₂ k with _ | v
  · rw [getOpt_eq_none_iff] at h ⊢
    exact fun hm => h ((hp.map Prod.fst).mem_iff.mp hm)
  · exact getOpt_eq_some_of_mem fs₁ k v nd (hp.mem_iff.mpr (mem_of_getOpt_eq_some fs₂ k v h))

/-! ### Lemmas about make_id -/

theorem checkIdKey_some (fs : List (String × Json)) (k : String) (v : Json)
    (h : checkIdKey fs k = some v) : getOpt fs k = some v ∧ truthy v = true := by
  unfold checkIdKey at h
  rcases hg : getOpt fs k with _ | w
  · rw [hg] at h
    cases h
  · rw [hg] at h
    dsimp only at h
    by_cases hw : truthy w = true
    · rw [if_pos hw] at h
      cases h
      exact ⟨rfl, hw⟩
    · rw [if_neg hw] at h
      cases h

theorem checkIdKey_none (fs : List (String × Json)) (k : String) (v : Json)
    (h : checkIdKey fs k = none) (hg : getOpt fs k = some v) : truthy v = false := by
  unfold checkIdKey at h
  rw [hg] at h
  dsimp only at h
  cases hw : truthy v
  · rfl
  · rw [hw] at h
    simp at h

theorem make_id_id_case (fs : List (String × Json)) (v : Json)
    (h : checkIdKey fs "id" = some v) : make_id (.obj fs) = .ok (pyStr v) := by
  simp [make_id, h]

theorem make_id_id2_case (fs : List (String × Json)) (v : Json)
    (h1 : checkIdKey fs "id" = none) (h2 : checkIdKey fs "_id" = some v) :
    make_id (.obj fs) = .ok (pyStr v) := by
  simp [make_id, h1, h2]

theorem make_id_id3_case (fs : List (String × Json)) (v : Json)
    (h1 : checkIdKey fs "id" = none) (h2 : checkIdKey fs "_id" = none)
    (h3 : checkIdKey fs "internship_id" = some v) : make_id (.obj fs) = .ok (pyStr v) := by
  simp [make_id, h1, h2, h3]

theorem make_id_hash_case (fs : List (String × Json)) (t : String)
    (h1 : checkIdKey fs "id" = none) (h2 : checkIdKey fs "_id" = none)
    (h3 : checkIdKey fs "internship_id" = none) (ht : titleVal fs = .str t) :
    make_id (.obj fs) = .ok (sha1hex (t ++ "|" ++ pyStr (linkVal fs))) := by
  simp [make_id, h1, h2, h3, ht]

/-- C5: the identity resolver is a pure function of the record contents: on
two mappings that are permutations of one another (with distinct keys, as in
any decoded JSON object), make_id returns the same result. -/
theorem make_id_key_order_invariant (fs₁ fs₂ : List (String × Json)) (hp : fs₁.Perm fs₂)
    (nd : (fs₁.map Prod.fst).Nodup) : make_id (.obj fs₁) = make_id (.obj fs₂) := by
  have e : ∀ k, getOpt fs₁ k = getOpt fs₂ k := getOpt_perm fs₁ fs₂ hp nd
  have e1 : ∀ k, checkIdKey fs₁ k = checkIdKey fs₂ k := by
    intro k
    unfold checkIdKey
    rw [e]
  have e2 : titleVal fs₁ = titleVal fs₂ := by
    unfold titleVal pyGet
    rw [e, e, e]
  have e3 : linkVal fs₁ = linkVal fs₂ := by
    unfold linkVal pyGet
    rw [e, e, e]
  simp only [make_id, e1, e2, e3]

/-- C5 witness: reordering the keys of a concrete record leaves the
identifier unchanged. -/
theorem make_id_key_order_invariant_witness :
    make_id (.obj [("id", .str "X"), ("title", .str "T")]) =
      make_id (.obj [("title", .str "T"), ("id", .str "X")]) :=
  make_id_key_order_invariant _ _
    (List.Perm.swap ("title", Json.str "T") ("id", Json.str "X") []) (by decide)

/-- C3: whenever a record carries one of the canonical identifier keys with a
truthy (non-empty) value, make_id returns such a value converted with str(),
and in particular a record with id "X" resolves to "X" rather than to any
hash of title and link. -/
theorem make_id_prefers_canonical_id :
    (∀ fs : List (String × Json),
      (∃ k ∈ idKeys, ∃ v, getOpt fs k = some v ∧ truthy v = true) →
      ∃ k ∈ idKeys, ∃ v, getOpt fs k = some v ∧ truthy v = true ∧
        make_id (.obj fs) = .ok (pyStr v)) ∧
    make_id (.obj [("id", .str "X"), ("title", .str "T"), ("link", .str "L")]) = .ok "X" := by
  constructor
  · intro fs hex
    rcases h1 : checkIdKey fs "id" with _ | v
    case some =>
      obtain ⟨hg, ht⟩ := checkIdKey_some fs "id" v h1
      exact ⟨"id", by simp [idKeys], v, hg, ht, make_id_id_case fs v h1⟩
    rcases h2 : checkIdKey fs "_id" with _ | v
    case some =>
      obtain ⟨hg, ht⟩ := checkIdKey_some fs "_id" v h2
      exact ⟨"_id", by simp [idKeys], v, hg, ht, make_id_id2_case fs v h1 h2⟩
    rcases h3 : checkIdKey fs "internship_id" with _ | v
    case some =>
      obtain ⟨hg, ht⟩ := checkIdKey_some fs "internship_id" v h3
      exact ⟨"internship_id", by simp [idKeys], v, hg, ht, make_id_id3_case fs v h1 h2 h3⟩
    obtain ⟨k, hk, v, hg, ht⟩ := hex
    simp only [idKeys, List.mem_cons] at hk
    rcases hk with rfl | rfl | rfl | hk
    · exact Bool.noConfusion (ht ▸ checkIdKey_none fs "id" v h1 hg)
    · exact Bool.noConfusion (ht ▸ checkIdKey_none fs "_id" v h2 hg)
    · exact Bool.noConfusion (ht ▸ checkIdKey_none fs "internship_id" v h3 hg)
    · simp at hk
  · rfl

/-- C3 witness: the generic part applied to the concrete record of the claim. -/
theorem make_id_prefers_canonical_id_witness :
    ∃ k ∈ idKeys, ∃ v,
      getOpt [("id", .str "X"), ("title", .str "T"), ("link", .str "L")] k = some v ∧
      truthy v = true ∧
      make_id (.obj [("id", .str "X"), ("title", .str "T"), ("link", .str "L")]) =
        .ok (pyStr v) :=
  make_id_prefers_canonical_id.1 _ ⟨"id", by simp [idKeys], .str "X", rfl, by decide⟩

/-- C4 (amended): for a record with no truthy canonical identifier key whose
title or-chain yields a string t (the default when title, name and position
are all absent or falsy is the empty string, not a distinguishable
placeholder), make_id returns the SHA-1 hex digest of t, the delimiter "|",
and str() of the link or-chain value; in particular a record with only title
t and link l resolves to the digest of t ++ "|" ++ l, and at the concrete
records of the claim changing either field changes the identifier. -/
theorem make_id_hash_fallback :
    (∀ (fs : List (String × Json)) (t : String),
      checkIdKey fs "id" = none → checkIdKey fs "_id" = none →
      checkIdKey fs "internship_id" = none → titleVal fs = .str t →
      make_id (.obj fs) = .ok (sha1hex (t ++ "|" ++ pyStr (linkVal fs)))) ∧
    (∀ t l : String,
      make_id (.obj [("title", .str t), ("link", .str l)]) =
        .ok (sha1hex (t ++ "|" ++ l))) ∧
    (sha1hex "T|L" ≠ sha1hex "U|L" ∧ sha1hex "T|L" ≠ sha1hex "T|M") := by
  refine ⟨fun fs t h1 h2 h3 ht => make_id_hash_case fs t h1 h2 h3 ht, ?_, by decide⟩
  intro t l
  have h1 : checkIdKey [("title", Json.str t), ("link", Json.str l)] "id" = none := by
    simp [checkIdKey, getOpt]
  have h2 : checkIdKey [("title", Json.str t), ("link", Json.str l)] "_id" = none := by
    simp [checkIdKey, getOpt]
  have h3 : checkIdKey [("title", Json.str t), ("link", Json.str l)] "internship_id" = none := by
    simp [checkIdKey, getOpt]
  have ht : titleVal [("title", Json.str t), ("link", Json.str l)] = .str t := by
    by_cases h : t = ""
    · subst h
      simp [titleVal, orDefault, pyGet, getOpt, truthy]
    · simp [titleVal, orDefault, pyGet, getOpt, truthy, h]
  have hl : pyStr (linkVal [("title", Json.str t), ("link", Json.str l)]) = l := by
    by_cases h : l = ""
    · subst h
      simp [linkVal, orDefault, pyGet, getOpt, truthy, pyStr]
    · simp [linkVal, orDefault, pyGet, getOpt, truthy, h, pyStr]
  rw [make_id_hash_case _ t h1 h2 h3 ht, hl]

/-- C4 counterexample to the claim as stated: a record with no canonical
identifier key whose first truthy title-like value is not a string makes
make_id raise a TypeError instead of returning a hash, and when every
title-like key is absent the hashed title defaults to the empty string, so
only the link appears before and after the delimiter. -/
theorem make_id_hash_fallback_cex :
    make_id (.obj [("title", .num 1)]) = .error "TypeError" ∧
    make_id (.obj [("link", .str "L")]) = .ok (sha1hex "|L") :=
  ⟨rfl, rfl⟩

/-- C4 witness: the generic hash path applied to the concrete record of the
claim. -/
theorem make_id_hash_fallback_witness :
    make_id (.obj [("title", .str "T"), ("link", .str "L")]) =
      .ok (sha1hex ("T" ++ "|" ++ "L")) :=
  make_id_hash_fallback.2.1 "T" "L"

/-! ### Lemmas about extract_items_from_response -/

/-- Whether the "data" key holds a list. -/
def dataList (fs : List (String × Json)) : Bool :=
  match getOpt fs "data" with
  | some (.arr _) => true
  | _ => false

/-- Whether the "data" key holds a mapping whose own "data" key holds a
list. -/
def dataInner (fs : List (String × Json)) : Bool :=
  match getOpt fs "data" with
  | some (.obj gs) => dataList gs
  | _ => false

/-- Whether the "internships" key holds a list. -/
def internshipsList (fs : List (String × Json)) : Bool :=
  match getOpt fs "internships" with
  | some (.arr _) => true
  | _ => false

theorem extractFallback_internships (fs : List (String × Json)) (xs : List Json)
    (h : getOpt fs "internships" = some (.arr xs)) :
    extractFallback fs = xs := by
  simp [extractFallback, h]

theorem extractFallback_firstList (fs : List (String × Json)) (xs : List Json)
    (hi : internshipsList fs = false) (hf : firstList fs = some xs) :
    extractFallback fs = xs := by
  unfold extractFallback
  unfold internshipsList at hi
  rcases h : getOpt fs "internships" with _ | v
  · simp [hf]
  · rw [h] at hi
    rcases v with _ | b | n | s | ys | gs <;> simp at hi <;> simp [hf]

theorem extractFallback_empty (fs : List (String × Json))
    (hi : internshipsList fs = false) (hf : firstList fs = none) :
    extractFallback fs = [] := by
  unfold extractFallback
  unfold internshipsList at hi
  rcases h : getOpt fs "internships" with _ | v
  · simp [hf]
  · rw [h] at hi
    rcases v with _ | b | n | s | ys | gs <;> simp at hi <;> simp [hf]

theorem extract_obj_fallback (fs : List (String × Json))
    (h1 : dataList fs = false) (h2 : dataInner fs = false) :
    extract_items_from_response (.obj fs) = extractFallback fs := by
  show extractObj fs = extractFallback fs
  unfold extractObj
  rcases h : getOpt fs "data" with _ | v
  · rfl
  · rcases v with _ | b | n | s | ys | gs
    · rfl
    · rfl
    · rfl
    · rfl
    · have ht : dataList fs = true := by
        unfold dataList
        rw [h]
      rw [ht] at h1
      exact Bool.noConfusion h1
    · show extractDataObj fs gs = extractFallback fs
      unfold extractDataObj
      rcases hg : getOpt gs "data" with _ | w
      · rfl
      · rcases w with _ | b | n | s | zs | hs
        · rfl
        · rfl
        · rfl
        · rfl
        · have ht : dataInner fs = true := by
            unfold dataInner
            rw [h]
            show dataList gs = true
            unfold dataList
            rw [hg]
          rw [ht] at h2
          exact Bool.noConfusion h2
        · rfl

/-- C2: the ordered fallback chain of the response normalizer, and its
totality on every response shape: the "data" list, else the nested
"data"."data" list, else the "internships" list, else the first list-valued
entry in iteration order, else []; a list is passed through unchanged; null,
an empty or matchless mapping, and every non-container shape give []. -/
theorem extract_items_fallback_chain :
    (extract_items_from_response .null = []) ∧
    (∀ xs, extract_items_from_response (.arr xs) = xs) ∧
    (∀ s, extract_items_from_response (.str s) = []) ∧
    (∀ n, extract_items_from_response (.num n) = []) ∧
    (∀ b, extract_items_from_response (.bool b) = []) ∧
    (∀ fs xs, getOpt fs "data" = some (.arr xs) →
      extract_items_from_response (.obj fs) = xs) ∧
    (∀ fs gs ys, getOpt fs "data" = some (.obj gs) → getOpt gs "data" = some (.arr ys) →
      extract_items_from_response (.obj fs) = ys) ∧
    (∀ fs xs, dataList fs = false → dataInner fs = false →
      getOpt fs "internships" = some (.arr xs) →
      extract_items_from_response (.obj fs) = xs) ∧
    (∀ fs xs, dataList fs = false → dataInner fs = false → internshipsList fs = false →
      firstList fs = some xs → extract_items_from_response (.obj fs) = xs) ∧
    (∀ fs, dataList fs = false → dataInner fs = false → internshipsList fs = false →
      firstList fs = none → extract_items_from_response (.obj fs) = []) := by
  refine ⟨rfl, fun xs => rfl, fun s => rfl, fun n => rfl, fun b => rfl, ?_, ?_, ?_, ?_, ?_⟩
  · intro fs xs h
    show extractObj fs = xs
    simp [extractObj, h]
  · intro fs gs ys h1 h2
    show extractObj fs = ys
    simp [extractObj, h1, extractDataObj, h2]
  · intro fs xs h1 h2 h3
    rw [extract_obj_fallback fs h1 h2]
    exact extractFallback_internships fs xs h3
  · intro fs xs h1 h2 h3 h4
    rw [extract_obj_fallback fs h1 h2]
    exact extractFallback_firstList fs xs h3 h4
  · intro fs h1 h2 h3 h4
    rw [extract_obj_fallback fs h1 h2]
    exact extractFallback_empty fs h3 h4

/-- C2 witness: the nested, internships and empty-mapping branches at the
concrete responses of the claim. -/
theorem extract_items_fallback_chain_witness :
    extract_items_from_response (.obj [("data", .obj [("data", .arr [.num 1, .num 2])])]) =
      [.num 1, .num 2] ∧
    extract_items_from_response (.obj [("internships", .arr [.num 3])]) = [.num 3] ∧
    extract_items_from_response (.obj []) = [] := by
  obtain ⟨e1, e2, e3, e4, e5, e6, e7, e8, e9, e10⟩ := extract_items_fallback_chain
  exact ⟨e7 _ _ _ rfl rfl, e8 _ _ rfl rfl rfl, e10 [] rfl rfl rfl rfl⟩

/-! ### Lemmas about the watch cycle -/

/-- The trace accumulated when the pagination loop ended. -/
def PagesOut.trace : PagesOut → List Event
  | .crashed _ tr => tr
  | .done _ _ _ _ tr => tr

theorem processItems_ok (items : List Json) :
    ∀ seen newly ids s' n' i', processItems items seen newly ids = .ok (s', n', i') →
      ∃ us, i' = ids ++ us ∧ s' = seen ∪ us.toFinset := by
  induction items with
  | nil =>
    intro seen newly ids s' n' i' h
    simp only [processItems, Except.ok.injEq, Prod.mk.injEq] at h
    obtain ⟨rfl, rfl, rfl⟩ := h
    exact ⟨[], by simp⟩
  | cons it rest ih =>
    intro seen newly ids s' n' i' h
    simp only [processItems] at h
    rcases hm : make_id it with e | uid
    · rw [hm] at h
      exact Except.noConfusion h
    · rw [hm] at h
      dsimp only at h
      by_cases hs : uid ∈ seen
      · rw [if_pos hs] at h
        obtain ⟨us, h1, h2⟩ := ih _ _ _ _ _ _ h
        refine ⟨uid :: us, by simp [h1], ?_⟩
        rw [h2, List.toFinset_cons, Finset.union_insert,
          Finset.insert_eq_self.mpr (Finset.mem_union_left _ hs)]
      · rw [if_neg hs] at h
        obtain ⟨us, h1, h2⟩ := ih _ _ _ _ _ _ h
        refine ⟨uid :: us, by simp [h1], ?_⟩
        rw [h2, List.toFinset_cons, Finset.union_insert, Finset.insert_union]

theorem processItems_newly (items : List Json) :
    ∀ seen newly ids s' n' i', processItems items seen newly ids = .ok (s', n', i') →
      (∀ p ∈ newly, p.1 ∈ seen) → ∀ p ∈ n', p.1 ∈ s' := by
  induction items with
  | nil =>
    intro seen newly ids s' n' i' h inv
    simp only [processItems, Except.ok.injEq, Prod.mk.injEq] at h
    obtain ⟨rfl, rfl, rfl⟩ := h
    exact inv
  | cons it rest ih =>
    intro seen newly ids s' n' i' h inv
    simp only [processItems] at h
    rcases hm : make_id it with e | uid
    · rw [hm] at h
      exact Except.noConfusion h
    · rw [hm] at h
      dsimp only at h
      by_cases hs : uid ∈ seen
      · rw [if_pos hs] at h
        exact ih _ _ _ _ _ _ h inv
      · rw [if_neg hs] at h
        refine ih _ _ _ _ _ _ h ?_
        intro p hp
        rcases List.mem_append.mp hp with hp' | hp'
        · exact Finset.mem_insert_of_mem (inv p hp')
        · rcases List.mem_singleton.mp hp' with rfl
          exact Finset.mem_insert_self _ _

theorem processItems_transfer (items : List Json) :
    ∀ seen newly ids s' n' i', processItems items seen newly ids = .ok (s', n', i') →
      ∀ S : Finset String, (∀ u ∈ i', u ∈ S) →
      ∀ newly₂ ids₂, ∃ i₂', processItems items S newly₂ ids₂ = .ok (S, newly₂, i₂') := by
  induction items with
  | nil =>
    intro seen newly ids s' n' i' h S hS newly₂ ids₂
    exact ⟨ids₂, rfl⟩
  | cons it rest ih =>
    intro seen newly ids s' n' i' h S hS newly₂ ids₂
    simp only [processItems] at h
    rcases hm : make_id it with e | uid
    · rw [hm] at h
      exact Except.noConfusion h
    · rw [hm] at h
      dsimp only at h
      have huid : uid ∈ S := by
        by_cases hs : uid ∈ seen
        · rw [if_pos hs] at h
          obtain ⟨us, h1, _⟩ := processItems_ok rest _ _ _ _ _ _ h
          exact hS uid (h1 ▸ List.mem_append_left _ (List.mem_append_right _ (by simp)))
        · rw [if_neg hs] at h
          obtain ⟨us, h1, _⟩ := processItems_ok rest _ _ _ _ _ _ h
          exact hS uid (h1 ▸ List.mem_append_left _ (List.mem_append_right _ (by simp)))
      have step : ∀ s₁ n₁ i₁, processItems rest s₁ n₁ i₁ = .ok (s', n', i') →
          ∃ i₂', processItems (it :: rest) S newly₂ ids₂ = .ok (S, newly₂, i₂') := by
        intro s₁ n₁ i₁ hrest
        obtain ⟨i₂', h₂⟩ := ih _ _ _ _ _ _ hrest S hS newly₂ (ids₂ ++ [uid])
        refine ⟨i₂', ?_⟩
        simp only [processItems, hm]
        rw [if_pos huid]
        exact h₂
      by_cases hs : uid ∈ seen
      · rw [if_pos hs] at h
        exact step _ _ _ h
      · rw [if_neg hs] at h
        exact step _ _ _ h

theorem runPages_done (fetch : Nat → Except Unit Json) (fuel : Nat) :
    ∀ page seen newly fetched ids tr s' n' f' i' tr',
      runPages fetch page fuel seen newly fetched ids tr = .done s' n' f' i' tr' →
      ∃ us, i' = ids ++ us ∧ s' = seen ∪ us.toFinset := by
  induction fuel with
  | zero =>
    intro page seen newly fetched ids tr s' n' f' i' tr' h
    simp only [runPages, PagesOut.done.injEq] at h
    obtain ⟨rfl, rfl, rfl, rfl, rfl⟩ := h
    exact ⟨[], by simp⟩
  | succ fuel ih =>
    intro page seen newly fetched ids tr s' n' f' i' tr' h
    simp only [runPages] at h
    rcases hf : fetch page with u | resp
    · rw [hf] at h
      dsimp only at h
      simp only [PagesOut.done.injEq] at h
      obtain ⟨rfl, rfl, rfl, rfl, rfl⟩ := h
      exact ⟨[], by simp⟩
    · rw [hf] at h
      dsimp only at h
      rcases he : extract_items_from_response resp with _ | ⟨it, items⟩
      · rw [he] at h
        dsimp only at h
        simp only [PagesOut.done.injEq] at h
        obtain ⟨rfl, rfl, rfl, rfl, rfl⟩ := h
        exact ⟨[], by simp⟩
      · rw [he] at h
        dsimp only at h
        rcases hp : processItems (it :: items) seen newly ids with e | ⟨s₁, n₁, i₁⟩
        · rw [hp] at h
          exact PagesOut.noConfusion h
        · rw [hp] at h
          dsimp only at h
          obtain ⟨u₀, hu0i, hu0s⟩ := processItems_ok _ _ _ _ _ _ _ hp
          obtain ⟨u₁, hu1i, hu1s⟩ := ih _ _ _ _ _ _ _ _ _ _ _ h
          refine ⟨u₀ ++ u₁, ?_, ?_⟩
          · rw [hu1i, hu0i, List.append_assoc]
          · rw [hu1s, hu0s, List.toFinset_append, Finset.union_assoc]

theorem runPages_newly (fetch : Nat → Except Unit Json) (fuel : Nat) :
    ∀ page seen newly fetched ids tr s' n' f' i' tr',
      runPages fetch page fuel seen newly fetched ids tr = .done s' n' f' i' tr' →
      (∀ p ∈ newly, p.1 ∈ seen) → ∀ p ∈ n', p.1 ∈ s' := by
  induction fuel with
  | zero =>
    intro page seen newly fetched ids tr s' n' f' i' tr' h inv
    simp only [runPages, PagesOut.done.injEq] at h
    obtain ⟨rfl, rfl, rfl, rfl, rfl⟩ := h
    exact inv
  | succ fuel ih =>
    intro page seen newly fetched ids tr s' n' f' i' tr' h inv
    simp only [runPages] at h
    rcases hf : fetch page with u | resp
    · rw [hf] at h
      dsimp only at h
      simp only [PagesOut.done.injEq] at h
      obtain ⟨rfl, rfl, rfl, rfl, rfl⟩ := h
      exact inv
    · rw [hf] at h
      dsimp only at h
      rcases he : extract_items_from_response resp with _ | ⟨it, items⟩
      · rw [he] at h
        dsimp only at h
        simp only [PagesOut.done.injEq] at h
        obtain ⟨rfl, rfl, rfl, rfl, rfl⟩ := h
        exact inv
      · rw [he] at h
        dsimp only at h
        rcases hp : processItems (it :: items) seen newly ids with e | ⟨s₁, n₁, i₁⟩
        · rw [hp] at h
          exact PagesOut.noConfusion h
        · rw [hp] at h
          dsimp only at h
          exact ih _ _ _ _ _ _ _ _ _ _ _ h (processItems_newly _ _ _ _ _ _ _ hp inv)

theorem runPages_trace (fetch : Nat → Except Unit Json) (fuel : Nat) :
    ∀ page seen newly fetched ids tr,
      ∃ Δ, (runPages fetch page fuel seen newly fetched ids tr).trace = tr ++ Δ ∧
        ∀ e ∈ Δ, e.isFetch = true := by
  induction fuel with
  | zero =>
    intro page seen newly fetched ids tr
    exact ⟨[], by simp [runPages, PagesOut.trace], by simp⟩
  | succ fuel ih =>
    intro page seen newly fetched ids tr
    rcases hf : fetch page with u | resp
    · refine ⟨[.fetch page], ?_, by simp [Event.isFetch]⟩
      simp [runPages, hf, PagesOut.trace]
    · rcases he : extract_items_from_response resp with _ | ⟨it, items⟩
      · refine ⟨[.fetch page], ?_, by simp [Event.isFetch]⟩
        simp [runPages, hf, he, PagesOut.trace]
      · rcases hp : processItems (it :: items) seen newly ids with e | ⟨s₁, n₁, i₁⟩
        · refine ⟨[.fetch page], ?_, by simp [Event.isFetch]⟩
          simp [runPages, hf, he, hp, PagesOut.trace]
        · obtain ⟨Δ, h1, h2⟩ := ih (page + 1) s₁ n₁ (fetched + (it :: items).length) i₁
            (tr ++ [.fetch page])
          refine ⟨.fetch page :: Δ, ?_, ?_⟩
          · have : runPages fetch page (fuel + 1) seen newly fetched ids tr =
                runPages fetch (page + 1) fuel s₁ n₁ (fetched + (it :: items).length) i₁
                  (tr ++ [.fetch page]) := by
              simp only [runPages, hf, he, hp]
            rw [this, h1, List.append_assoc]
            rfl
          · intro e hme
            rcases List.mem_cons.mp hme with rfl | hme'
            · rfl
            · exact h2 e hme'

theorem runPages_transfer (fetch : Nat → Except Unit Json) (fuel : Nat) :
    ∀ page seen newly fetched ids tr s' n' f' i' tr',
      runPages fetch page fuel seen newly fetched ids tr = .done s' n' f' i' tr' →
      ∀ S : Finset String, (∀ u ∈ i', u ∈ S) →
      ∀ newly₂ fetched₂ ids₂ tr₂, ∃ f₂ i₂ tr₂',
        runPages fetch page fuel S newly₂ fetched₂ ids₂ tr₂ = .done S newly₂ f₂ i₂ tr₂' := by
  induction fuel with
  | zero =>
    intro page seen newly fetched ids tr s' n' f' i' tr' h S hS newly₂ fetched₂ ids₂ tr₂
    exact ⟨fetched₂, ids₂, tr₂, rfl⟩
  | succ fuel ih =>
    intro page seen newly fetched ids tr s' n' f' i' tr' h S hS newly₂ fetched₂ ids₂ tr₂
    simp only [runPages] at h
    rcases hf : fetch page with u | resp
    · exact ⟨fetched₂, ids₂, tr₂ ++ [.fetch page], by simp only [runPages, hf]⟩
    · rw [hf] at h
      dsimp only at h
      rcases he : extract_items_from_response resp with _ | ⟨it, items⟩
      · refine ⟨fetched₂, ids₂, tr₂ ++ [.fetch page], ?_⟩
        simp only [runPages, hf, he]
      · rw [he] at h
        dsimp only at h
        rcases hp : processItems (it :: items) seen newly ids with e | ⟨s₁, n₁, i₁⟩
        · rw [hp] at h
          exact PagesOut.noConfusion h
        · rw [hp] at h
          dsimp only at h
          have hSi : ∀ u ∈ i₁, u ∈ S := by
            obtain ⟨us, h1, _⟩ := runPages_done fetch fuel _ _ _ _ _ _ _ _ _ _ _ h
            intro u hu
            exact hS u (h1 ▸ List.mem_append_left _ hu)
          obtain ⟨i₂', hp₂⟩ := processItems_transfer _ _ _ _ _ _ _ hp S hSi newly₂ ids₂
          obtain ⟨f₂, i₂, tr₂', hrec⟩ := ih _ _ _ _ _ _ _ _ _ _ _ h S hS newly₂
            (fetched₂ + (it :: items).length) i₂' (tr₂ ++ [.fetch page])
          refine ⟨f₂, i₂, tr₂', ?_⟩
          simp only [runPages, hf, he, hp₂]
          exact hrec

theorem fetchedPages_append (a b : List Event) :
    fetchedPages (a ++ b) = fetchedPages a ++ fetchedPages b :=
  List.filterMap_append ..

theorem fetchedPages_notifyEvents (l : List (String × Json)) :
    fetchedPages (notifyEvents l) = [] := by
  induction l with
  | nil => rfl
  | cons p rest ih =>
    obtain ⟨uid, it⟩ := p
    simp [notifyEvents, fetchedPages] at ih ⊢
    exact ih

theorem runPages_pages (fetch : Nat → Except Unit Json) (fuel : Nat) :
    ∀ page seen newly fetched ids tr,
      ∃ K, K ≤ fuel ∧
        fetchedPages (runPages fetch page fuel seen newly fetched ids tr).trace =
          fetchedPages tr ++ List.range' page K ∧
        (∀ N resp, N ∈ List.range' page K → fetch N = .ok resp →
          extract_items_from_response resp = [] → ∀ M ∈ List.range' page K, M ≤ N) ∧
        (∀ N, N ∈ List.range' page K → fetch N = .error () →
          ∀ M ∈ List.range' page K, M ≤ N) := by
  induction fuel with
  | zero =>
    intro page seen newly fetched ids tr
    refine ⟨0, Nat.le_refl 0, by simp [runPages, PagesOut.trace], by simp, by simp⟩
  | succ fuel ih =>
    intro page seen newly fetched ids tr
    rcases hf : fetch page with u | resp
    · refine ⟨1, by omega, ?_, ?_, ?_⟩
      · simp [runPages, hf, PagesOut.trace, fetchedPages_append]
        rfl
      · intro N resp hN _ _ M hM
        simp only [List.range'] at hN hM
        rcases List.mem_singleton.mp hN with rfl
        rcases List.mem_singleton.mp hM with rfl
        exact Nat.le_refl _
      · intro N hN _ M hM
        simp only [List.range'] at hN hM
        rcases List.mem_singleton.mp hN with rfl
        rcases List.mem_singleton.mp hM with rfl
        exact Nat.le_refl _
    · rcases he : extract_items_from_response resp with _ | ⟨it, items⟩
      · refine ⟨1, by omega, ?_, ?_, ?_⟩
        · simp [runPages, hf, he, PagesOut.trace, fetchedPages_append]
          rfl
        · intro N resp' hN _ _ M hM
          simp only [List.range'] at hN hM
          rcases List.mem_singleton.mp hN with rfl
          rcases List.mem_singleton.mp hM with rfl
          exact Nat.le_refl _
        · intro N hN herrN M hM
          simp only [List.range'] at hN hM
          rcases List.mem_singleton.mp hN with rfl
          rw [hf] at herrN
          exact Except.noConfusion herrN
      · rcases hp : processItems (it :: items) seen newly ids with e | ⟨s₁, n₁, i₁⟩
        · refine ⟨1, by omega, ?_, ?_, ?_⟩
          · simp [runPages, hf, he, hp, PagesOut.trace, fetchedPages_append]
            rfl
          · intro N resp' hN _ _ M hM
            simp only [List.range'] at hN hM
            rcases List.mem_singleton.mp hN with rfl
            rcases List.mem_singleton.mp hM with rfl
            exact Nat.le_refl _
          · intro N hN herrN M hM
            simp only [List.range'] at hN hM
            rcases List.mem_singleton.mp hN with rfl
            rw [hf] at herrN
            exact Except.noConfusion herrN
        · obtain ⟨K', hK'le, hK'tr, hK'stop, hK'estop⟩ := ih (page + 1) s₁ n₁
            (fetched + (it :: items).length) i₁ (tr ++ [.fetch page])
          have hstep : runPages fetch page (fuel + 1) seen newly fetched ids tr =
              runPages fetch (page + 1) fuel s₁ n₁ (fetched + (it :: items).length) i₁
                (tr ++ [.fetch page]) := by
            simp only [runPages, hf, he, hp]
          refine ⟨K' + 1, by omega, ?_, ?_, ?_⟩
          · rw [hstep, hK'tr, fetchedPages_append]
            show fetchedPages tr ++ [page] ++ List.range' (page + 1) K' =
              fetchedPages tr ++ page :: List.range' (page + 1) K'
            rw [List.append_assoc]
            rfl
          · intro N resp' hN hfN heN M hM
            have hNr : N = page ∨ N ∈ List.range' (page + 1) K' := by
              rw [List.range'_succ] at hN
              exact List.mem_cons.mp hN
            rcases hNr with rfl | hNr
            · rw [hf] at hfN
              injection hfN with hre
              rw [← hre] at heN
              rw [he] at heN
              exact List.noConfusion heN
            · rw [List.range'_succ] at hM
              rcases List.mem_cons.mp hM with rfl | hMr
              · have := (List.mem_range'_1.mp hNr).1
                omega
              · exact hK'stop N resp' hNr hfN heN M hMr
          · intro N hN herrN M hM
            have hNr : N = page ∨ N ∈ List.range' (page + 1) K' := by
              rw [List.range'_succ] at hN
              exact List.mem_cons.mp hN
            rcases hNr with rfl | hNr
            · rw [hf] at herrN
              exact Except.noConfusion herrN
            · rw [List.range'_succ] at hM
              rcases List.mem_cons.mp hM with rfl | hMr
              · have := (List.mem_range'_1.mp hNr).1
                omega
              · exact hK'estop N hNr herrN M hMr

theorem runPages_fetch_error_done (fetch : Nat → Except Unit Json) (fuel : Nat) :
    ∀ page seen newly fetched ids tr N,
      fetch N = .error () →
      N ∈ fetchedPages (runPages fetch page fuel seen newly fetched ids tr).trace →
      N ∉ fetchedPages tr →
      ∃ s' n' f' i' tr',
        runPages fetch page fuel seen newly fetched ids tr = .done s' n' f' i' tr' := by
  induction fuel with
  | zero =>
    intro page seen newly fetched ids tr N herr hN hNtr
    simp only [runPages, PagesOut.trace] at hN
    exact absurd hN hNtr
  | succ fuel ih =>
    intro page seen newly fetched ids tr N herr hN hNtr
    rcases hf : fetch page with u | resp
    · exact ⟨seen, newly, fetched, ids, tr ++ [.fetch page], by simp only [runPages, hf]⟩
    · rcases he : extract_items_from_response resp with _ | ⟨it, items⟩
      · exact ⟨seen, newly, fetched, ids, tr ++ [.fetch page], by simp only [runPages, hf, he]⟩
      · rcases hp : processItems (it :: items) seen newly ids with e | ⟨s₁, n₁, i₁⟩
        · have htr : (runPages fetch page (fuel + 1) seen newly fetched ids tr).trace =
              tr ++ [.fetch page] := by
            simp only [runPages, hf, he, hp, PagesOut.trace]
          rw [htr, fetchedPages_append] at hN
          rcases List.mem_append.mp hN with hN' | hN'
          · exact absurd hN' hNtr
          · rcases List.mem_singleton.mp hN' with rfl
            rw [hf] at herr
            exact Except.noConfusion herr
        · have hstep : runPages fetch page (fuel + 1) seen newly fetched ids tr =
              runPages fetch (page + 1) fuel s₁ n₁ (fetched + (it :: items).length) i₁
                (tr ++ [.fetch page]) := by
            simp only [runPages, hf, he, hp]
          rw [hstep] at hN ⊢
          refine ih _ _ _ _ _ _ N herr hN ?_
          rw [fetchedPages_append]
          intro hmem
          rcases List.mem_append.mp hmem with hN' | hN'
          · exact absurd hN' hNtr
          · rcases List.mem_singleton.mp hN' with rfl
            rw [hf] at herr
            exact Except.noConfusion herr

theorem notify_mem (l : List (String × Json)) (p : String × Json) (hp : p ∈ l) :
    Event.notify p.1 p.2 ∈ notifyEvents l := by
  induction l with
  | nil => simp at hp
  | cons q rest ih =>
    obtain ⟨uid, it⟩ := q
    rcases List.mem_cons.mp hp with rfl | hp'
    · exact List.mem_cons_self _ _
    · exact List.mem_cons_of_mem _ (ih hp')

theorem fetchedPages_tail (f n : Nat) (nw : List (String × Json)) (s : Finset String) :
    fetchedPages (.report f n :: (notifyEvents nw ++ [.persist s])) = [] := by
  show List.filterMap _ _ = []
  rw [List.filterMap_cons]
  dsimp only
  rw [List.filterMap_append]
  have h1 : fetchedPages (notifyEvents nw) = [] := fetchedPages_notifyEvents nw
  rw [show List.filterMap _ (notifyEvents nw) = fetchedPages (notifyEvents nw) from rfl, h1]
  rfl

theorem watcherMain_fetchedPages (fetch : Nat → Except Unit Json) (mp : Nat)
    (s0 : Finset String) :
    fetchedPages (watcherMain fetch mp s0).trace =
      fetchedPages (runPages fetch 1 mp s0 [] 0 [] []).trace := by
  unfold watcherMain
  rcases hr : runPages fetch 1 mp s0 [] 0 [] [] with ⟨e, tr'⟩ | ⟨s', nw, f', i', tr'⟩
  · rfl
  · show fetchedPages (tr' ++ _) = fetchedPages tr'
    rw [fetchedPages_append, fetchedPages_tail]
    exact List.append_nil _

/-- C1 counterexample to the claim as stated: on a run that discovers one new
item, the notification for that item is emitted before any persist event, so
no persist of a set containing the identifier precedes the notification. -/
theorem notification_precedes_any_persist_cex :
    pbnAux [] (watcherMain fetchA 5 ∅).trace = false ∧
    (watcherMain fetchA 5 ∅).trace =
      [.fetch 1, .fetch 2, .report 1 1, .notify "A" objA, .persist (insert "A" ∅)] :=
  ⟨by decide, rfl⟩

/-- C1 (amended): on a run that finishes, every newly discovered identifier
is inserted into the in-memory seen set, but the set is persisted exactly
once, at the end of the run, after the summary print and after all
notification attempts; the single persisted set contains the identifier of
every notified item. -/
theorem persist_once_at_end_after_notifications :
    ∀ (fetch : Nat → Except Unit Json) (maxPages : Nat) (seen0 seen : Finset String)
      (notified : List (String × Json)) (f n : Nat) (ids : List String) (tr : List Event),
      watcherMain fetch maxPages seen0 = .finished seen notified f n ids tr →
      ∃ pre, tr = pre ++ .report f n :: (notifyEvents notified ++ [.persist seen]) ∧
        (∀ e ∈ pre, e.isFetch = true) ∧ (∀ p ∈ notified, p.1 ∈ seen) := by
  intro fetch mp s0 seen notified f n ids tr h
  unfold watcherMain at h
  rcases hr : runPages fetch 1 mp s0 [] 0 [] [] with ⟨e, tr'⟩ | ⟨s', nw, f', i', tr'⟩
  · rw [hr] at h
    exact MainOut.noConfusion h
  · rw [hr] at h
    dsimp only at h
    simp only [MainOut.finished.injEq] at h
    obtain ⟨rfl, rfl, rfl, rfl, rfl, rfl⟩ := h
    refine ⟨tr', rfl, ?_, ?_⟩
    · obtain ⟨Δ, hΔ, hfetch⟩ := runPages_trace fetch mp 1 s0 [] 0 [] []
      rw [hr] at hΔ
      simp only [PagesOut.trace, List.nil_append] at hΔ
      intro e he'
      exact hfetch e (hΔ ▸ he')
    · exact runPages_newly fetch mp 1 s0 [] 0 [] [] _ _ _ _ _ hr (by simp)

/-- C1 witness: the amended theorem at a concrete run with one new item. -/
theorem persist_once_at_end_after_notifications_witness :
    ∃ pre,
      [Event.fetch 1, Event.fetch 2, Event.report 1 1, Event.notify "A" objA,
        Event.persist (insert "A" ∅)] =
        pre ++ Event.report 1 1 :: (notifyEvents [("A", objA)] ++
          [Event.persist (insert "A" ∅)]) ∧
      (∀ e ∈ pre, e.isFetch = true) ∧
      (∀ p ∈ [("A", objA)], p.1 ∈ insert "A" (∅ : Finset String)) :=
  persist_once_at_end_after_notifications fetchA 5 ∅ (insert "A" ∅) [("A", objA)] 1 1
    ["A"] _ rfl

/-- C6: on a run that finishes, the persisted seen set is exactly the union
of the set loaded at start and the identifiers resolved during the run, so
no identifier present at load is removed. -/
theorem seen_set_final_union :
    ∀ (fetch : Nat → Except Unit Json) (maxPages : Nat) (seen0 seen : Finset String)
      (notified : List (String × Json)) (f n : Nat) (ids : List String) (tr : List Event),
      watcherMain fetch maxPages seen0 = .finished seen notified f n ids tr →
      seen = seen0 ∪ ids.toFinset ∧ seen0 ⊆ seen := by
  intro fetch mp s0 seen notified f n ids tr h
  unfold watcherMain at h
  rcases hr : runPages fetch 1 mp s0 [] 0 [] [] with ⟨e, tr'⟩ | ⟨s', nw, f', i', tr'⟩
  · rw [hr] at h
    exact MainOut.noConfusion h
  · rw [hr] at h
    dsimp only at h
    simp only [MainOut.finished.injEq] at h
    obtain ⟨rfl, rfl, rfl, rfl, rfl, rfl⟩ := h
    obtain ⟨us, h1, h2⟩ := runPages_done fetch mp 1 s0 [] 0 [] [] _ _ _ _ _ hr
    have h1' : i' = us := by simpa using h1
    subst h1'
    exact ⟨h2, h2 ▸ Finset.subset_union_left⟩

/-- C6 witness: the union equation at a concrete run discovering "A". -/
theorem seen_set_final_union_witness :
    insert "A" (∅ : Finset String) = ∅ ∪ ["A"].toFinset ∧
      (∅ : Finset String) ⊆ insert "A" ∅ :=
  seen_set_final_union fetchA 5 ∅ (insert "A" ∅) [("A", objA)] 1 1 ["A"] _ rfl

/-- C7: a second run against the same upstream, starting from the seen set a
finished run persisted, finishes with zero new items (so zero notification
attempts) and persists the same seen set. -/
theorem second_run_idempotent :
    ∀ (fetch : Nat → Except Unit Json) (maxPages : Nat) (seen0 seen : Finset String)
      (notified : List (String × Json)) (f n : Nat) (ids : List String) (tr : List Event),
      watcherMain fetch maxPages seen0 = .finished seen notified f n ids tr →
      ∃ f₂ ids₂ tr₂, watcherMain fetch maxPages seen = .finished seen [] f₂ 0 ids₂ tr₂ := by
  intro fetch mp s0 seen notified f n ids tr h
  unfold watcherMain at h
  rcases hr : runPages fetch 1 mp s0 [] 0 [] [] with ⟨e, tr'⟩ | ⟨s', nw, f', i', tr'⟩
  · rw [hr] at h
    exact MainOut.noConfusion h
  · rw [hr] at h
    dsimp only at h
    simp only [MainOut.finished.injEq] at h
    obtain ⟨rfl, rfl, rfl, rfl, rfl, rfl⟩ := h
    obtain ⟨us, h1, h2⟩ := runPages_done fetch mp 1 s0 [] 0 [] [] _ _ _ _ _ hr
    have h1' : i' = us := by simpa using h1
    subst h1'
    have hSi : ∀ u ∈ i', u ∈ s' := by
      intro u hu
      rw [h2]
      exact Finset.mem_union_right _ (List.mem_toFinset.mpr hu)
    obtain ⟨f₂, i₂, tr₂', hrec⟩ :=
      runPages_transfer fetch mp 1 s0 [] 0 [] [] _ _ _ _ _ hr s' hSi [] 0 [] []
    refine ⟨f₂, i₂,
      tr₂' ++ .report f₂ ([] : List (String × Json)).length ::
        (notifyEvents [] ++ [.persist s']), ?_⟩
    unfold watcherMain
    rw [hrec]
    rfl

/-- C7 witness: re-running the concrete one-item upstream from the persisted
set yields no new items and the same set. -/
theorem second_run_idempotent_witness :
    ∃ f₂ ids₂ tr₂,
      watcherMain fetchA 5 (insert "A" ∅) = .finished (insert "A" ∅) [] f₂ 0 ids₂ tr₂ :=
  second_run_idempotent fetchA 5 ∅ (insert "A" ∅) [("A", objA)] 1 1 ["A"] _ rfl

/-- C8: the pages passed to fetch_page in a run form the contiguous block
1, 2, ..., K for some K at most the MAX_PAGES bound, in increasing order, and
if a fetched page N yields zero extracted records then every fetched page is
at most N, so no later page is ever fetched. -/
theorem pagination_stops_on_empty_page :
    ∀ (fetch : Nat → Except Unit Json) (maxPages : Nat) (seen0 : Finset String),
      (∃ K, K ≤ maxPages ∧
        fetchedPages (watcherMain fetch maxPages seen0).trace = List.range' 1 K) ∧
      (∀ N resp, N ∈ fetchedPages (watcherMain fetch maxPages seen0).trace →
        fetch N = .ok resp → extract_items_from_response resp = [] →
        ∀ M ∈ fetchedPages (watcherMain fetch maxPages seen0).trace, M ≤ N) := by
  intro fetch mp s0
  obtain ⟨K, hK, htr, hstop, hestop⟩ := runPages_pages fetch mp 1 s0 [] 0 [] []
  have hmain : fetchedPages (watcherMain fetch mp s0).trace = List.range' 1 K := by
    rw [watcherMain_fetchedPages, htr]
    rfl
  constructor
  · exact ⟨K, hK, hmain⟩
  · intro N resp hN hfN heN M hM
    rw [hmain] at hN hM
    exact hstop N resp hN hfN heN M hM

/-- C8 witness: on the concrete upstream whose page 2 is empty, the fetched
pages are exactly 1 and 2 and every fetched page is at most 2. -/
theorem pagination_stops_on_empty_page_witness :
    fetchedPages (watcherMain fetchA 5 ∅).trace = [1, 2] ∧
    (∀ M ∈ fetchedPages (watcherMain fetchA 5 ∅).trace, M ≤ 2) :=
  ⟨rfl, (pagination_stops_on_empty_page fetchA 5 ∅).2 2 (.obj [("data", .arr [])])
    (by decide) rfl rfl⟩

/-- C9: when a fetched page fails to fetch, the run still finishes normally:
a notification attempt appears in the trace for every accumulated new item,
each such identifier is in the final seen set, the set is persisted, and the
summary counts are reported. -/
theorem fetch_failure_keeps_progress :
    ∀ (fetch : Nat → Except Unit Json) (maxPages : Nat) (seen0 : Finset String) (N : Nat),
      N ∈ fetchedPages (watcherMain fetch maxPages seen0).trace →
      fetch N = .error () →
      (∀ M ∈ fetchedPages (watcherMain fetch maxPages seen0).trace, M ≤ N) ∧
      ∃ seen notified f n ids tr,
        watcherMain fetch maxPages seen0 = .finished seen notified f n ids tr ∧
        (∀ p ∈ notified, Event.notify p.1 p.2 ∈ tr ∧ p.1 ∈ seen) ∧
        Event.persist seen ∈ tr ∧ Event.report f n ∈ tr := by
  intro fetch mp s0 N hN herr
  obtain ⟨K, hK, htr, hstop, hestop⟩ := runPages_pages fetch mp 1 s0 [] 0 [] []
  have htr' : fetchedPages (runPages fetch 1 mp s0 [] 0 [] []).trace = List.range' 1 K := by
    rw [htr]
    rfl
  have hNR : N ∈ List.range' 1 K := by
    rw [watcherMain_fetchedPages, htr'] at hN
    exact hN
  have hN2 : N ∈ fetchedPages (runPages fetch 1 mp s0 [] 0 [] []).trace := by
    rw [htr']
    exact hNR
  refine ⟨?_, ?_⟩
  · intro M hM
    rw [watcherMain_fetchedPages, htr'] at hM
    exact hestop N hNR herr M hM
  obtain ⟨s', nw, f', i', tr', hr⟩ :=
    runPages_fetch_error_done fetch mp 1 s0 [] 0 [] [] N herr hN2 (by simp [fetchedPages])
  refine ⟨s', nw, f', nw.length, i',
    tr' ++ .report f' nw.length :: (notifyEvents nw ++ [.persist s']), ?_, ?_, ?_, ?_⟩
  · unfold watcherMain
    rw [hr]
  · intro p hp
    refine ⟨?_, ?_⟩
    · exact List.mem_append_right _
        (List.mem_cons_of_mem _ (List.mem_append_left _ (notify_mem nw p hp)))
    · exact runPages_newly fetch mp 1 s0 [] 0 [] [] _ _ _ _ _ hr (by simp) p hp
  · exact List.mem_append_right _ (List.mem_cons_of_mem _ (List.mem_append_right _ (by simp)))
  · exact List.mem_append_right _ (List.mem_cons_self _ _)

/-- C9 witness: the concrete upstream failing on page 2 still finishes, with
the page-1 item notified and persisted. -/
theorem fetch_failure_keeps_progress_witness :
    (∀ M ∈ fetchedPages (watcherMain fetchD 5 ∅).trace, M ≤ 2) ∧
    ∃ seen notified f n ids tr,
      watcherMain fetchD 5 ∅ = .finished seen notified f n ids tr ∧
      (∀ p ∈ notified, Event.notify p.1 p.2 ∈ tr ∧ p.1 ∈ seen) ∧
      Event.persist seen ∈ tr ∧ Event.report f n ∈ tr :=
  fetch_failure_keeps_progress fetchD 5 ∅ 2 (by decide) rfl

/-- C10: the identity resolver is total only on mappings: the normalizer
passes a bare list of strings through unchanged, make_id raises an
AttributeError on the title lookup for such an element, and the run aborts
with no persist event ever emitted (save_seen is never reached). -/
theorem make_id_crashes_on_nonmapping_run :
    extract_items_from_response (.arr [.str "a", .str "b"]) = [.str "a", .str "b"] ∧
    make_id (.str "a") = .error "AttributeError" ∧
    watcherMain fetchC 5 ∅ = .crashed "AttributeError" [.fetch 1] ∧
    hasPersist (watcherMain fetchC 5 ∅).trace = false :=
  ⟨rfl, rfl, rfl, by decide⟩
